import Mathlib

/-!
Shallow embedding of the `@darkwolf/base64` codec (src/lib/index.mjs).

Modelling conventions:
* JavaScript strings are `List Char`; `Uint8Array` buffers are `List Nat`
  whose elements are bytes (`< 256` where a claim needs it).
* Thrown exceptions become `Except Err` results.  The error payload keeps
  only the error kind (the spec's error taxonomy), not the message text or
  the reported index.
* JavaScript numbers appearing as integer values are `Int`; within the safe
  integer range every arithmetic step performed by the source
  (`n % 64`, `MathFloor(n / 64)`, `r * 64 + i`) is exact in IEEE doubles,
  so exact `Int` arithmetic is a faithful model on that range.
* `BigInt` is `Int`.
-/

deriving instance DecidableEq for Except

namespace B64

/-- Error kinds of the spec's error taxonomy (§7).  The source's
`SyntaxError` thrown during decoding maps to `invalidCharacter`; the two
`SyntaxError`s of `toAlphabet` (disallowed character, duplicate) map to
`invalidSymbol`; the `RangeError` of `toAlphabet` maps to `invalidLength`;
the `RangeError` of `encodeInt` maps to `rangeError`. -/
inductive Err where
  | typeError
  | rangeError
  | invalidLength
  | invalidSymbol
  | invalidCharacter
deriving DecidableEq, Repr

/-- `const BASE = 64`. -/
def BASE : Nat := 64

/-- `const ALPHABET = 'ABC...xyz0123456789+/'` (as a list of characters). -/
def ALPHABET : List Char :=
  "ABCDEFGHIJKLMNOPQRSTUVWXYZabcdefghijklmnopqrstuvwxyz0123456789+/".data

/-- `const PADDING_CHAR = '='`. -/
def PADDING_CHAR : Char := '='

/-- `const NEGATIVE_CHAR = '-'`. -/
def NEGATIVE_CHAR : Char := '-'

/-- `NumberMAX_SAFE_INTEGER` = 2^53 - 1. -/
def MAX_SAFE_INTEGER : Int := 9007199254740991

/-- `NumberMIN_SAFE_INTEGER` = -(2^53 - 1). -/
def MIN_SAFE_INTEGER : Int := -9007199254740991

/-- Lookup-object access `lookup[key]`: the lookup objects built by
`createAlphabetLookups` map the `i`-th table entry to `i`.  An absent key
yields `none` (JavaScript `undefined`).  Construction forbids duplicate
entries, so first-match and the source's last-write-wins coincide. -/
def mapLookup {α : Type} [DecidableEq α] : List α → α → Option Nat
  | [], _ => none
  | x :: xs, c => if x = c then some 0 else (mapLookup xs c).map (· + 1)

/-- The symbol→index lookup (`this[alphabetLookupSymbol]`) of an instance
whose alphabet is `ab`. -/
def alphabetLookup (ab : List Char) (c : Char) : Option Nat := mapLookup ab c

/-- The index→byte table `this[baseMapSymbol]`: `baseMap[i] = charCodeAt(alphabet[i])`. -/
def baseMapOf (ab : List Char) : List Nat := ab.map Char.toNat

/-- Body of the validation loop of `isAlphabet`: each character must be in
the standard alphabet (`base64[alphabetLookupSymbol]`) and not previously
seen (`uniqueCharsLookup`). -/
def isAlphabetGo (seen : List Char) : List Char → Bool
  | [] => true
  | c :: rest =>
    if (alphabetLookup ALPHABET c).isNone || seen.contains c then false
    else isAlphabetGo (c :: seen) rest

/-- `isAlphabet(value)` for string input (the `PrimitivesIsString` type test
is absorbed by the `List Char` input type). -/
def isAlphabet (value : List Char) : Bool :=
  value.length == BASE && isAlphabetGo [] value

/-- Body of the validation loop of `toAlphabet`: a character absent from
the standard alphabet throws `SyntaxError` ("Invalid character ...",
`invalidSymbol`), a repeated character throws `SyntaxError`
("... is already in the alphabet", also `invalidSymbol`). -/
def toAlphabetGo (seen : List Char) : List Char → Except Err Unit
  | [] => .ok ()
  | c :: rest =>
    if (alphabetLookup ALPHABET c).isNone then .error .invalidSymbol
    else if seen.contains c then .error .invalidSymbol
    else toAlphabetGo (c :: seen) rest

/-- `toAlphabet(value)`: `none` models the `undefined` argument (default
alphabet); a non-64-length string throws `RangeError` (`invalidLength`). -/
def toAlphabet : Option (List Char) → Except Err (List Char)
  | none => .ok ALPHABET
  | some value =>
    if value.length ≠ BASE then .error .invalidLength
    else (toAlphabetGo [] value).map (fun _ => value)

/-- A `TypesToIntegerOrInfinity` result: an integer, or one of the two
infinities produced from non-finite input. -/
inductive IntOrInf where
  | negInf
  | int (n : Int)
  | posInf
deriving DecidableEq, Repr

/-- Digit-emission loop of `encodeInt` / `encodeBigInt`:
`while (number) { result = alphabet[number % BASE] + result; number = floor(number / BASE) }`.
`fuel` only bounds the recursion; `fuel ≥ n` makes it run to completion
(the loop performs at most `n` iterations for magnitude `n`). -/
def toDigitsGo (ab : List Char) : Nat → Nat → List Char
  | 0, _ => []
  | fuel + 1, n =>
    if n = 0 then []
    else toDigitsGo ab fuel (n / 64) ++ [ab.getD (n % 64) '!']

/-- `Base64.prototype.encodeInt` after the `TypesToIntegerOrInfinity`
coercion (its result is the `IntOrInf` argument). -/
def encodeInt (ab : List Char) (v : IntOrInf) : Except Err (List Char) :=
  match v with
  | .negInf => .error .rangeError
  | .posInf => .error .rangeError
  | .int n =>
    if n < MIN_SAFE_INTEGER then .error .rangeError
    else if MAX_SAFE_INTEGER < n then .error .rangeError
    else if n = 0 then .ok [ab.getD 0 '!']
    else if n < 0 then .ok (NEGATIVE_CHAR :: toDigitsGo ab n.natAbs n.natAbs)
    else .ok (toDigitsGo ab n.natAbs n.natAbs)

/-- `Base64.prototype.encodeBigInt` after `TypesToBigInt`: same digit loop,
with exact big-integer arithmetic and no range check (the method body has
no `throw` for integer input, so the embedding is total). -/
def encodeBigInt (ab : List Char) (n : Int) : List Char :=
  if n = 0 then [ab.getD 0 '!']
  else if n < 0 then NEGATIVE_CHAR :: toDigitsGo ab n.natAbs n.natAbs
  else toDigitsGo ab n.natAbs n.natAbs

/-- Accumulation loop shared by `decodeInt` and `decodeBigInt`:
`result = result * BASE + index`, throwing `SyntaxError`
(`invalidCharacter`) when a character is not in the alphabet. -/
def decodeIntGo (ab : List Char) : List Char → Int → Except Err Int
  | [], acc => .ok acc
  | c :: rest, acc =>
    match alphabetLookup ab c with
    | none => .error .invalidCharacter
    | some i => decodeIntGo ab rest (acc * 64 + (i : Int))

/-- `Base64.prototype.decodeInt` (after the `String(string)` coercion):
`isNegative = string[0] === '-'`; the loop starts at 1 only when
`isNegative && length > 1`; the result is negated when
`isNegative && result > 0`. -/
def decodeInt (ab : List Char) (s : List Char) : Except Err Int :=
  let isNegative := s.headD ' ' = NEGATIVE_CHAR
  let body := if isNegative ∧ 1 < s.length then s.drop 1 else s
  (decodeIntGo ab body 0).map (fun r => if isNegative ∧ 0 < r then -r else r)

/-- Spec-side predicate (§7): the coerced value "falls outside the
representable safe-integer range", non-finite input mapping to an infinite
value, which is always outside. -/
def outsideSafeRange : IntOrInf → Prop
  | .negInf => True
  | .posInf => True
  | .int n => n < MIN_SAFE_INTEGER ∨ MAX_SAFE_INTEGER < n

/-- `Base64.prototype.decodeBigInt`: same loop; the negation is
unconditional on `isNegative`. -/
def decodeBigInt (ab : List Char) (s : List Char) : Except Err Int :=
  let isNegative := s.headD ' ' = NEGATIVE_CHAR
  let body := if isNegative ∧ 1 < s.length then s.drop 1 else s
  (decodeIntGo ab body 0).map (fun r => if isNegative then -r else r)

/-- Range resolution shared verbatim by `encode`, `decode`,
`[encodeToStringSymbol]` and `[decodeFromStringSymbol]`:
`start < 0 ? MathMax(0, length + start) : MathMin(start, length)`
(and identically for `end`). -/
def resolveIndex (length : Nat) (v : Int) : Nat :=
  (if v < 0 then max 0 ((length : Int) + v) else min v (length : Int)).toNat

/-- The sub-range of the input actually visited by the source's loops:
indices `[startIndex, endIndex)` of the input, where an omitted bound
(`undefined` start/end argument) defaults to `0` / `length`.  The loops
process `newLength - extraBytes` full-group elements from `startIndex`
followed by the `extraBytes` remaining ones, i.e. exactly this range. -/
def selectRange {α : Type} (l : List α) (start? end? : Option Int) : List α :=
  let length := l.length
  let startIndex := match start? with
    | none => 0
    | some v => resolveIndex length v
  let endIndex := match end? with
    | none => length
    | some v => resolveIndex length v
  (l.drop startIndex).take (endIndex - startIndex)

/-- ECMAScript `Array.prototype.slice` index resolution (spec side, for
comparison): `relative < 0 ? max(length + relative, 0) : min(relative, length)`. -/
def jsSliceIndex (length : Nat) (relative : Int) : Nat :=
  if relative < 0 then (max ((length : Int) + relative) 0).toNat
  else min relative.toNat length

/-- JavaScript-slice selection of a sub-sequence (spec side): the half-open
range `[start, end)` with negative indices counted from the end, clamped to
`[0, length]`, omitted bounds defaulting to the full input. -/
def jsSlice {α : Type} (l : List α) (start? end? : Option Int) : List α :=
  let length := l.length
  let k := match start? with
    | none => 0
    | some v => jsSliceIndex length v
  let fin := match end? with
    | none => length
    | some v => jsSliceIndex length v
  (l.drop k).take (fin - k)

/-- Group loop of `Base64.prototype.encode` over the selected range:
full 3-byte groups become 4 base-map bytes (shifts 18/12/6/0, mask 0x3f);
a 1-byte remainder becomes 2 bytes (`n >> 2`, `n << 4 & 0x3f`); a 2-byte
remainder becomes 3 bytes (`n >> 10`, `n >> 4 & 0x3f`, `n << 2 & 0x3f`).
The source writes into a `Uint8Array` of length `⌊(4·n+2)/3⌋`, which the
emitted elements fill exactly; no padding is appended in this byte-domain
variant.  An out-of-range table access stores `0` (JavaScript `undefined`
cast by the typed array), modelled by `getD`'s default. -/
def encGroups (m : List Nat) : List Nat → List Nat
  | b0 :: b1 :: b2 :: rest =>
    m.getD ((b0 * 65536 + b1 * 256 + b2) / 262144 % 64) 0 ::
    m.getD ((b0 * 65536 + b1 * 256 + b2) / 4096 % 64) 0 ::
    m.getD ((b0 * 65536 + b1 * 256 + b2) / 64 % 64) 0 ::
    m.getD ((b0 * 65536 + b1 * 256 + b2) % 64) 0 ::
    encGroups m rest
  | [b0] =>
    [m.getD (b0 / 4) 0, m.getD (b0 * 16 % 64) 0]
  | [b0, b1] =>
    [m.getD ((b0 * 256 + b1) / 1024) 0,
     m.getD ((b0 * 256 + b1) / 16 % 64) 0,
     m.getD ((b0 * 256 + b1) * 4 % 64) 0]
  | [] => []

/-- `Base64.prototype.encode(input, start, end)` (byte domain).  The
`InstancesIsUint8Array` type test is absorbed by the input type. -/
def encode (m : List Nat) (input : List Nat) (start? end? : Option Int) : List Nat :=
  encGroups m (selectRange input start? end?)

/-- Group loop of `Base64.prototype[encodeToStringSymbol]` (character
domain): same bit arithmetic through the alphabet string, plus
`'='.repeat(3 - extraBytes)` appended when there is a remainder. -/
def encToStrGroups (ab : List Char) : List Nat → List Char
  | b0 :: b1 :: b2 :: rest =>
    ab.getD ((b0 * 65536 + b1 * 256 + b2) / 262144 % 64) '!' ::
    ab.getD ((b0 * 65536 + b1 * 256 + b2) / 4096 % 64) '!' ::
    ab.getD ((b0 * 65536 + b1 * 256 + b2) / 64 % 64) '!' ::
    ab.getD ((b0 * 65536 + b1 * 256 + b2) % 64) '!' ::
    encToStrGroups ab rest
  | [b0] =>
    [ab.getD (b0 / 4) '!', ab.getD (b0 * 16 % 64) '!',
     PADDING_CHAR, PADDING_CHAR]
  | [b0, b1] =>
    [ab.getD ((b0 * 256 + b1) / 1024) '!',
     ab.getD ((b0 * 256 + b1) / 16 % 64) '!',
     ab.getD ((b0 * 256 + b1) * 4 % 64) '!',
     PADDING_CHAR]
  | [] => []

/-- `Base64.prototype[encodeToStringSymbol](input, start, end)` /
`encodeToString` (the latter only adds the `Uint8Array` type test). -/
def encodeToString (ab : List Char) (input : List Nat) (start? end? : Option Int) :
    List Char :=
  encToStrGroups ab (selectRange input start? end?)

/-- Group loop shared (textually duplicated in the source) by
`Base64.prototype.decode` and `[decodeFromStringSymbol]`: groups of 4
symbols are looked up (throwing `SyntaxError` / `invalidCharacter` on a
miss), packed as `(i0 << 18) + (i1 << 12) + (i2 << 6) + i3` and split into
3 bytes; a trailing group of 1 symbol is validated only; 2 symbols yield 1
byte (`(i0 << 2) + (i1 >> 4) & 0xff`); 3 symbols yield 2 bytes
(`(i0 << 10) + (i1 << 4) + (i2 >> 2)`, high and low byte).  The table is
the byte→index map for `decode` and the symbol→index map for
`decodeFromString`. -/
def decGroups {α : Type} [DecidableEq α] (table : List α) : List α → Except Err (List Nat)
  | c0 :: c1 :: c2 :: c3 :: rest =>
    match mapLookup table c0, mapLookup table c1,
          mapLookup table c2, mapLookup table c3 with
    | some i0, some i1, some i2, some i3 =>
      match decGroups table rest with
      | .ok tail =>
        .ok (((i0 * 262144 + i1 * 4096 + i2 * 64 + i3) / 65536 % 256) ::
             ((i0 * 262144 + i1 * 4096 + i2 * 64 + i3) / 256 % 256) ::
             ((i0 * 262144 + i1 * 4096 + i2 * 64 + i3) % 256) :: tail)
      | .error e => .error e
    | _, _, _, _ => .error .invalidCharacter
  | [c0] =>
    match mapLookup table c0 with
    | some _ => .ok []
    | none => .error .invalidCharacter
  | [c0, c1] =>
    match mapLookup table c0, mapLookup table c1 with
    | some i0, some i1 => .ok [(i0 * 4 + i1 / 16) % 256]
    | _, _ => .error .invalidCharacter
  | [c0, c1, c2] =>
    match mapLookup table c0, mapLookup table c1, mapLookup table c2 with
    | some i0, some i1, some i2 =>
      .ok [(i0 * 1024 + i1 * 16 + i2 / 4) / 256 % 256,
           (i0 * 1024 + i1 * 16 + i2 / 4) % 256]
    | _, _, _ => .error .invalidCharacter
  | [] => .ok []

/-- `Base64.prototype.decode(input, start, end)` (byte domain): the
selected range is processed directly with `extraBytes = newLength % 4`;
this method performs no padding-marker detection. -/
def decode (m : List Nat) (input : List Nat) (start? end? : Option Int) :
    Except Err (List Nat) :=
  decGroups m (selectRange input start? end?)

/-- Padding scan of `[decodeFromStringSymbol]`: when the selected length is
a multiple of 4, count trailing `'='` characters of the selected range, at
most 2 and at most `newLength`; otherwise the padding count is 0. -/
def paddingCountOf (sel : List Char) : Nat :=
  if sel.length % 4 = 0 then
    min (min sel.length 2) ((sel.reverse.takeWhile (fun c => c == PADDING_CHAR)).length)
  else 0

/-- `Base64.prototype[decodeFromStringSymbol]` applied to the selected
range: strip the detected padding, then run the shared group loop on the
remaining `validLength` characters. -/
def decodeFromStringCore (ab : List Char) (sel : List Char) : Except Err (List Nat) :=
  decGroups ab (sel.take (sel.length - paddingCountOf sel))

/-- `Base64.prototype[decodeFromStringSymbol](string, start, end)` /
`decodeFromString` (the latter only adds the string type test). -/
def decodeFromString (ab : List Char) (s : List Char) (start? end? : Option Int) :
    Except Err (List Nat) :=
  decodeFromStringCore ab (selectRange s start? end?)

/-- UTF-8 encoding of one character (the platform `TextEncoder`, which is
not part of this repository; standard 1–4 byte UTF-8). -/
def utf8EncodeChar (c : Char) : List Nat :=
  if c.toNat < 128 then [c.toNat]
  else if c.toNat < 2048 then
    [192 + c.toNat / 64, 128 + c.toNat % 64]
  else if c.toNat < 65536 then
    [224 + c.toNat / 4096, 128 + c.toNat / 64 % 64, 128 + c.toNat % 64]
  else
    [240 + c.toNat / 262144, 128 + c.toNat / 4096 % 64,
     128 + c.toNat / 64 % 64, 128 + c.toNat % 64]

/-- UTF-8 encoding of a string (`TextEncoder.prototype.encode`). -/
def utf8Encode (s : List Char) : List Nat :=
  s.foldr (fun c acc => utf8EncodeChar c ++ acc) []

/-- `Base64.prototype.encodeText(string, start, end)`: UTF-8 encode the
string, then delegate to the character-domain encoder with the same range
arguments (which therefore index the UTF-8 byte sequence).  The encoder is
a parameter so the theorems do not depend on a fixed transcoder; `utf8Encode`
is the concrete instance. -/
def encodeText (ab : List Char) (utf8 : List Char → List Nat) (s : List Char)
    (start? end? : Option Int) : List Char :=
  encodeToString ab (utf8 s) start? end?

/-- `Base64.prototype.decodeText(string, start, end)`: delegate to the
character-domain decoder with the same range arguments, then UTF-8 decode
the resulting bytes (`TextDecoder.prototype.decode`, abstracted as a
parameter because it is platform code). -/
def decodeText (ab : List Char) (utf8dec : List Nat → List Char) (s : List Char)
    (start? end? : Option Int) : Except Err (List Char) :=
  (decodeFromString ab s start? end?).map utf8dec

/-! ### Lookup-table lemmas -/

theorem mapLookup_eq_none {α : Type} [DecidableEq α] (l : List α) (c : α) :
    mapLookup l c = none ↔ c ∉ l := by
  induction l with
  | nil => simp [mapLookup]
  | cons x xs ih =>
    by_cases hx : x = c
    · simp [mapLookup, hx]
    · simp [mapLookup, hx, Option.map_eq_none', ih, Ne.symm hx]

theorem mapLookup_getD {α : Type} [DecidableEq α] (l : List α) (hn : l.Nodup)
    (i : Nat) (hi : i < l.length) (d : α) :
    mapLookup l (l.getD i d) = some i := by
  induction l generalizing i with
  | nil => simp at hi
  | cons x xs ih =>
    rcases List.nodup_cons.mp hn with ⟨hx, hxs⟩
    cases i with
    | zero => simp [mapLookup, List.getD]
    | succ j =>
      have hj : j < xs.length := by simpa using hi
      have hmem : xs.getD j d ∈ xs := by
        rw [List.getD_eq_getElem xs d hj]
        exact List.getElem_mem hj
      have hne : ¬ x = xs.getD j d := fun h => hx (h ▸ hmem)
      simp only [List.getD_cons_succ, mapLookup, if_neg hne, ih hxs j hj]
      rfl

/-! ### Range-selection lemmas -/

theorem resolveIndex_eq_jsSliceIndex (length : Nat) (v : Int) :
    resolveIndex length v = jsSliceIndex length v := by
  unfold resolveIndex jsSliceIndex
  split <;> omega

theorem selectRange_eq_jsSlice {α : Type} (l : List α) (start? end? : Option Int) :
    selectRange l start? end? = jsSlice l start? end? := by
  unfold selectRange jsSlice
  cases start? <;> cases end? <;>
    simp only [resolveIndex_eq_jsSliceIndex]

theorem selectRange_none_none {α : Type} (l : List α) :
    selectRange l none none = l := by
  simp [selectRange]

/-! ### Buffer-codec lemmas -/

theorem getD_mem_or_default {α : Type} (l : List α) (i : Nat) (d : α) :
    l.getD i d ∈ l ∨ l.getD i d = d := by
  by_cases hi : i < l.length
  · left
    rw [List.getD_eq_getElem l d hi]
    exact List.getElem_mem hi
  · right
    exact List.getD_eq_default l d (by omega)

theorem decGroups_encGroups (m : List Nat) (hn : m.Nodup) (hl : m.length = 64)
    (B : List Nat) (hB : ∀ b ∈ B, b < 256) :
    decGroups m (encGroups m B) = Except.ok B := by
  have lk : ∀ i : Nat, i < 64 → mapLookup m (m[i]?.getD 0) = some i := by
    intro i hi
    have h := mapLookup_getD m hn i (by omega) 0
    simpa [List.getD] using h
  suffices h : ∀ (N : Nat) (B : List Nat), B.length ≤ N → (∀ b ∈ B, b < 256) →
      decGroups m (encGroups m B) = Except.ok B from h B.length B le_rfl hB
  intro N
  induction N with
  | zero =>
    intro B hlen _
    obtain rfl : B = [] := List.length_eq_zero.mp (Nat.le_zero.mp hlen)
    simp [encGroups, decGroups]
  | succ k ih =>
    intro B hlen hb
    rcases B with _ | ⟨b0, _ | ⟨b1, _ | ⟨b2, rest⟩⟩⟩
    · simp [encGroups, decGroups]
    · have h0 : b0 < 256 := hb b0 (by simp)
      have l1 := lk (b0 / 4) (by omega)
      have l2 := lk (b0 * 16 % 64) (by omega)
      have e1 : (b0 / 4 * 4 + b0 * 16 % 64 / 16) % 256 = b0 := by omega
      simp [encGroups, decGroups, l1, l2, e1]
    · have h0 : b0 < 256 := hb b0 (by simp)
      have h1 : b1 < 256 := hb b1 (by simp)
      have l1 := lk ((b0 * 256 + b1) / 1024) (by omega)
      have l2 := lk ((b0 * 256 + b1) / 16 % 64) (by omega)
      have l3 := lk ((b0 * 256 + b1) * 4 % 64) (by omega)
      have e1 : ((b0 * 256 + b1) / 1024 * 1024 + (b0 * 256 + b1) / 16 % 64 * 16 +
          (b0 * 256 + b1) * 4 % 64 / 4) / 256 % 256 = b0 := by omega
      have e2 : ((b0 * 256 + b1) / 1024 * 1024 + (b0 * 256 + b1) / 16 % 64 * 16 +
          (b0 * 256 + b1) * 4 % 64 / 4) % 256 = b1 := by omega
      simp [encGroups, decGroups, l1, l2, l3, e1, e2]
    · have h0 : b0 < 256 := hb b0 (by simp)
      have h1 : b1 < 256 := hb b1 (by simp)
      have h2 : b2 < 256 := hb b2 (by simp)
      have l1 := lk ((b0 * 65536 + b1 * 256 + b2) / 262144 % 64) (by omega)
      have l2 := lk ((b0 * 65536 + b1 * 256 + b2) / 4096 % 64) (by omega)
      have l3 := lk ((b0 * 65536 + b1 * 256 + b2) / 64 % 64) (by omega)
      have l4 := lk ((b0 * 65536 + b1 * 256 + b2) % 64) (by omega)
      have hrest : decGroups m (encGroups m rest) = Except.ok rest := by
        refine ih rest (by simp at hlen; omega) (fun b hbmem => hb b (by simp [hbmem]))
      have e1 : ((b0 * 65536 + b1 * 256 + b2) / 262144 % 64 * 262144 +
          (b0 * 65536 + b1 * 256 + b2) / 4096 % 64 * 4096 +
          (b0 * 65536 + b1 * 256 + b2) / 64 % 64 * 64 +
          (b0 * 65536 + b1 * 256 + b2) % 64) / 65536 % 256 = b0 := by omega
      have e2 : ((b0 * 65536 + b1 * 256 + b2) / 262144 % 64 * 262144 +
          (b0 * 65536 + b1 * 256 + b2) / 4096 % 64 * 4096 +
          (b0 * 65536 + b1 * 256 + b2) / 64 % 64 * 64 +
          (b0 * 65536 + b1 * 256 + b2) % 64) / 256 % 256 = b1 := by omega
      have e3 : ((b0 * 65536 + b1 * 256 + b2) / 262144 % 64 * 262144 +
          (b0 * 65536 + b1 * 256 + b2) / 4096 % 64 * 4096 +
          (b0 * 65536 + b1 * 256 + b2) / 64 % 64 * 64 +
          (b0 * 65536 + b1 * 256 + b2) % 64) % 256 = b2 := by omega
      simp [encGroups, decGroups, l1, l2, l3, l4, hrest, e1, e2, e3]

theorem encGroups_length (m : List Nat) (B : List Nat) :
    (encGroups m B).length = (4 * B.length + 2) / 3 := by
  suffices h : ∀ (N : Nat) (B : List Nat), B.length ≤ N →
      (encGroups m B).length = (4 * B.length + 2) / 3 from h B.length B le_rfl
  intro N
  induction N with
  | zero =>
    intro B hlen
    obtain rfl : B = [] := List.length_eq_zero.mp (Nat.le_zero.mp hlen)
    simp [encGroups]
  | succ k ih =>
    intro B hlen
    rcases B with _ | ⟨b0, _ | ⟨b1, _ | ⟨b2, rest⟩⟩⟩
    · simp [encGroups]
    · simp [encGroups]
    · simp [encGroups]
    · have hrest := ih rest (by simp at hlen; omega)
      simp only [encGroups, List.length_cons, hrest, List.length_cons]
      omega

theorem encToStrGroups_length_mod (ab : List Char) (B : List Nat) :
    (encToStrGroups ab B).length % 4 = 0 := by
  suffices h : ∀ (N : Nat) (B : List Nat), B.length ≤ N →
      (encToStrGroups ab B).length % 4 = 0 from h B.length B le_rfl
  intro N
  induction N with
  | zero =>
    intro B hlen
    obtain rfl : B = [] := List.length_eq_zero.mp (Nat.le_zero.mp hlen)
    simp [encToStrGroups]
  | succ k ih =>
    intro B hlen
    rcases B with _ | ⟨b0, _ | ⟨b1, _ | ⟨b2, rest⟩⟩⟩
    · simp [encToStrGroups]
    · simp [encToStrGroups]
    · simp [encToStrGroups]
    · have hrest := ih rest (by simp at hlen; omega)
      simp only [encToStrGroups, List.length_cons]
      omega

theorem encGroups_mem (m : List Nat) (B : List Nat) (x : Nat)
    (hx : x ∈ encGroups m B) : x ∈ m ∨ x = 0 := by
  suffices h : ∀ (N : Nat) (B : List Nat), B.length ≤ N →
      ∀ x ∈ encGroups m B, x ∈ m ∨ x = 0 from h B.length B le_rfl x hx
  intro N
  induction N with
  | zero =>
    intro B hlen x hx
    obtain rfl : B = [] := List.length_eq_zero.mp (Nat.le_zero.mp hlen)
    simp [encGroups] at hx
  | succ k ih =>
    intro B hlen x hx
    rcases B with _ | ⟨b0, _ | ⟨b1, _ | ⟨b2, rest⟩⟩⟩
    · simp [encGroups] at hx
    · simp only [encGroups, List.mem_cons, List.mem_singleton] at hx
      rcases hx with h | h | h
      · exact h ▸ getD_mem_or_default m _ 0
      · exact h ▸ getD_mem_or_default m _ 0
      · simp at h
    · simp only [encGroups, List.mem_cons, List.mem_singleton] at hx
      rcases hx with h | h | h | h
      · exact h ▸ getD_mem_or_default m _ 0
      · exact h ▸ getD_mem_or_default m _ 0
      · exact h ▸ getD_mem_or_default m _ 0
      · simp at h
    · simp only [encGroups, List.mem_cons] at hx
      rcases hx with h | h | h | h | h
      · exact h ▸ getD_mem_or_default m _ 0
      · exact h ▸ getD_mem_or_default m _ 0
      · exact h ▸ getD_mem_or_default m _ 0
      · exact h ▸ getD_mem_or_default m _ 0
      · exact ih rest (by simp at hlen; omega) x h

/-! ### Numeral-codec lemmas -/

theorem decodeIntGo_append (ab : List Char) (l1 l2 : List Char) (acc : Int) :
    decodeIntGo ab (l1 ++ l2) acc =
      (decodeIntGo ab l1 acc).bind (fun v => decodeIntGo ab l2 v) := by
  induction l1 generalizing acc with
  | nil => simp [decodeIntGo, Except.bind]
  | cons c rest ih =>
    simp only [List.cons_append, decodeIntGo]
    cases alphabetLookup ab c with
    | none => rfl
    | some i => exact ih _

theorem toDigitsGo_mem (ab : List Char) (hl : ab.length = 64) :
    ∀ (fuel n : Nat) (c : Char), c ∈ toDigitsGo ab fuel n → c ∈ ab := by
  intro fuel
  induction fuel with
  | zero => intro n c hc; simp [toDigitsGo] at hc
  | succ k ih =>
    intro n c hc
    by_cases hn : n = 0
    · simp [toDigitsGo, hn] at hc
    · simp only [toDigitsGo, if_neg hn, List.mem_append, List.mem_singleton] at hc
      rcases hc with h | h
      · exact ih _ c h
      · subst h
        rw [List.getD_eq_getElem ab '!' (by omega)]
        exact List.getElem_mem (by omega)

theorem toDigitsGo_ne_nil (ab : List Char) (fuel n : Nat) (hn : n ≠ 0)
    (hfuel : n ≤ fuel) : toDigitsGo ab fuel n ≠ [] := by
  cases fuel with
  | zero => omega
  | succ k => simp [toDigitsGo, hn]

theorem headD_mem {α : Type} (l : List α) (d : α) (h : l ≠ []) : l.headD d ∈ l := by
  cases l with
  | nil => exact absurd rfl h
  | cons x xs => simp [List.headD]

theorem decodeIntGo_toDigitsGo (ab : List Char) (hn : ab.Nodup) (hl : ab.length = 64) :
    ∀ (fuel n : Nat), n ≤ fuel → ∀ acc : Int,
      decodeIntGo ab (toDigitsGo ab fuel n) acc =
        Except.ok (acc * 64 ^ (toDigitsGo ab fuel n).length + n) := by
  intro fuel
  induction fuel with
  | zero =>
    intro n hfuel acc
    obtain rfl : n = 0 := Nat.le_zero.mp hfuel
    simp [toDigitsGo, decodeIntGo]
  | succ k ih =>
    intro n hfuel acc
    by_cases h0 : n = 0
    · simp [toDigitsGo, h0, decodeIntGo]
    · have hdiv : n / 64 ≤ k := by
        have := Nat.div_lt_self (Nat.pos_of_ne_zero h0) (by omega : 1 < 64)
        omega
      have hlook : alphabetLookup ab (ab.getD (n % 64) '!') = some (n % 64) :=
        mapLookup_getD ab hn (n % 64) (by omega) '!'
      have hrec := ih (n / 64) hdiv acc
      have hn64 : ((n / 64 : Nat) : Int) * 64 + ((n % 64 : Nat) : Int) = (n : Int) := by
        push_cast
        omega
      simp only [toDigitsGo, if_neg h0, decodeIntGo_append, hrec, Except.bind,
        decodeIntGo, hlook, List.length_append, List.length_singleton]
      congr 1
      rw [pow_succ]
      linear_combination hn64

/-! ### Alphabet-validation lemmas -/

theorem char_toNat_injective : Function.Injective Char.toNat := by
  intro a b h
  have h2 : a.val.toBitVec.toNat = b.val.toBitVec.toNat := by simpa [Char.toNat] using h
  have h3 : a.val.toBitVec = b.val.toBitVec := BitVec.toNat_injective h2
  rcases a with ⟨⟨av⟩, ha⟩
  rcases b with ⟨⟨bv⟩, hb⟩
  simp only at h3
  subst h3
  rfl

theorem toAlphabetGo_ok (l : List Char) :
    ∀ seen : List Char, toAlphabetGo seen l = Except.ok () →
      l.Nodup ∧ (∀ c ∈ l, c ∉ seen) ∧ (∀ c ∈ l, c ∈ ALPHABET) := by
  induction l with
  | nil => intro seen _; exact ⟨List.nodup_nil, by simp, by simp⟩
  | cons c rest ih =>
    intro seen h
    by_cases hlook : (alphabetLookup ALPHABET c).isNone
    · simp [toAlphabetGo, hlook] at h
    · by_cases hseen : c ∈ seen
      · simp [toAlphabetGo, hlook, hseen] at h
      · have h' : toAlphabetGo (c :: seen) rest = Except.ok () := by
          simpa [toAlphabetGo, hlook, hseen] using h
        obtain ⟨hnodup, hnot, hmem⟩ := ih (c :: seen) h'
        have hcal : c ∈ ALPHABET := by
          by_contra hc
          exact hlook (Option.isNone_iff_eq_none.mpr ((mapLookup_eq_none ALPHABET c).mpr hc))
        have hcrest : c ∉ rest := fun hc => (hnot c hc) (List.mem_cons_self c seen)
        refine ⟨List.nodup_cons.mpr ⟨hcrest, hnodup⟩, ?_, ?_⟩
        · intro x hx
          rcases List.mem_cons.mp hx with rfl | hx'
          · exact hseen
          · exact fun hxs => (hnot x hx') (List.mem_cons_of_mem c hxs)
        · intro x hx
          rcases List.mem_cons.mp hx with rfl | hx'
          · exact hcal
          · exact hmem x hx'

theorem toAlphabet_ok (v w : List Char) (h : toAlphabet (some v) = Except.ok w) :
    w = v ∧ v.length = 64 ∧ v.Nodup ∧ ∀ c ∈ v, c ∈ ALPHABET := by
  simp only [toAlphabet] at h
  by_cases hlen : v.length ≠ BASE
  · simp [hlen] at h
  · rw [if_neg hlen] at h
    have hlen' : v.length = 64 := by simpa [BASE] using hlen
    cases hgo : toAlphabetGo [] v with
    | error e => rw [hgo] at h; simp [Except.map] at h
    | ok u =>
      obtain ⟨hnodup, _, hmem⟩ := toAlphabetGo_ok v [] hgo
      rw [hgo] at h
      simp only [Except.map, Except.ok.injEq] at h
      exact ⟨h.symm, hlen', hnodup, hmem⟩

theorem baseMapOf_nodup (ab : List Char) (h : ab.Nodup) : (baseMapOf ab).Nodup :=
  h.map char_toNat_injective

theorem baseMapOf_length (ab : List Char) : (baseMapOf ab).length = ab.length :=
  List.length_map ab Char.toNat

theorem isAlphabetGo_false (l : List Char) :
    ∀ seen : List Char, (∃ c ∈ l, c ∉ ALPHABET) → isAlphabetGo seen l = false := by
  induction l with
  | nil => intro seen h; simp at h
  | cons c rest ih =>
    intro seen h
    by_cases hlook : (alphabetLookup ALPHABET c).isNone
    · simp [isAlphabetGo, hlook]
    · have hcal : c ∈ ALPHABET := by
        by_contra hc
        exact hlook (Option.isNone_iff_eq_none.mpr ((mapLookup_eq_none ALPHABET c).mpr hc))
      by_cases hseen : c ∈ seen
      · simp [isAlphabetGo, hseen]
      · obtain ⟨x, hx, hxal⟩ := h
        have hxrest : x ∈ rest := by
          rcases List.mem_cons.mp hx with rfl | hx'
          · exact absurd hcal hxal
          · exact hx'
        have hrec := ih (c :: seen) ⟨x, hxrest, hxal⟩
        simpa [isAlphabetGo, hlook, hseen] using hrec

theorem toAlphabetGo_foreign (l : List Char) :
    ∀ seen : List Char, (∃ c ∈ l, c ∉ ALPHABET) →
      toAlphabetGo seen l = Except.error Err.invalidSymbol := by
  induction l with
  | nil => intro seen h; simp at h
  | cons c rest ih =>
    intro seen h
    by_cases hlook : (alphabetLookup ALPHABET c).isNone
    · simp [toAlphabetGo, hlook]
    · have hcal : c ∈ ALPHABET := by
        by_contra hc
        exact hlook (Option.isNone_iff_eq_none.mpr ((mapLookup_eq_none ALPHABET c).mpr hc))
      by_cases hseen : c ∈ seen
      · simp [toAlphabetGo, hlook, hseen]
      · obtain ⟨x, hx, hxal⟩ := h
        have hxrest : x ∈ rest := by
          rcases List.mem_cons.mp hx with rfl | hx'
          · exact absurd hcal hxal
          · exact hx'
        have hrec := ih (c :: seen) ⟨x, hxrest, hxal⟩
        simpa [toAlphabetGo, hlook, hseen] using hrec

/-! ### Claim theorems -/

set_option maxRecDepth 100000

/-- C1, counterexample: on the byte `[0]` (a 1-byte remainder) the
buffer-domain `encode` output has length 2, not a multiple of 4 — the
padding claimed for the buffer-domain encoder is absent. -/
theorem c1_counterexample :
    (encode (baseMapOf ALPHABET) [0] none none).length % 4 ≠ 0 := by decide

/-- C1 (amended): after the full 3-byte groups the buffer-domain `encode`
emits 2 data symbols for a 1-byte remainder and 3 data symbols for a 2-byte
remainder but appends no padding markers, so its output length is
`⌊(4·n + 2) / 3⌋` (a multiple of 4 only when `n % 3 = 0`) and the padding
byte `0x3d` never occurs in its output; the padding markers and the
always-multiple-of-4 length belong to the string-domain `encodeToString`. -/
theorem c1_encode_length (m : List Nat) (ab : List Char) (B : List Nat) :
    (encode m B none none).length = (4 * B.length + 2) / 3
    ∧ (encodeToString ab B none none).length % 4 = 0
    ∧ (61 : Nat) ∉ encode (baseMapOf ALPHABET) B none none := by
  refine ⟨?_, ?_, ?_⟩
  · simp only [encode, selectRange_none_none]
    exact encGroups_length m B
  · simp only [encodeToString, selectRange_none_none]
    exact encToStrGroups_length_mod ab B
  · intro hx
    simp only [encode, selectRange_none_none] at hx
    rcases encGroups_mem _ B 61 hx with h | h
    · revert h
      decide
    · omega

/-- C1 witness: the amended statement at the concrete input `[0]`. -/
theorem c1_encode_length_witness :
    (encode (baseMapOf ALPHABET) [0] none none).length = (4 * [0].length + 2) / 3
    ∧ (encodeToString ALPHABET [0] none none).length % 4 = 0
    ∧ (61 : Nat) ∉ encode (baseMapOf ALPHABET) [0] none none :=
  c1_encode_length (baseMapOf ALPHABET) ALPHABET [0]

/-- C2, counterexample: the buffer-domain `decode` applied to the byte
sequence of `"QQ=="` does not return the original byte `[0x41]`: it fails
on the padding byte `0x3d`, which is not in the byte→index map. -/
theorem c2_counterexample :
    decode (baseMapOf ALPHABET) [81, 81, 61, 61] none none ≠ Except.ok [65] := by
  decide

/-- C2 (amended): the padding-count inspection (up to the last 2 positions,
only when the selected length is a multiple of 4) is performed by the
string-domain `decodeFromString`, not by the buffer-domain `decode`: the
byte sequence of `"QQ=="` makes `decode` raise `InvalidCharacter`, while
`decodeFromString("QQ==")` decodes to the original byte `[0x41]`. -/
theorem c2_padding_location :
    decode (baseMapOf ALPHABET) [81, 81, 61, 61] none none =
      Except.error Err.invalidCharacter
    ∧ decodeFromString ALPHABET "QQ==".data none none = Except.ok [65] := by
  refine ⟨by decide, by decide⟩

/-- C3: buffer round-trip — for every byte sequence and every alphabet
accepted by construction (the default `ALPHABET` included),
`decode(encode(B)) = B`. -/
theorem c3_roundtrip (ab : List Char) (B : List Nat)
    (hab : toAlphabet (some ab) = Except.ok ab) (hB : ∀ b ∈ B, b < 256) :
    decode (baseMapOf ab) (encode (baseMapOf ab) B none none) none none =
      Except.ok B := by
  obtain ⟨-, hlen, hnodup, -⟩ := toAlphabet_ok ab ab hab
  have h1 : (baseMapOf ab).Nodup := baseMapOf_nodup ab hnodup
  have h2 : (baseMapOf ab).length = 64 := by rw [baseMapOf_length, hlen]
  simp only [encode, decode, selectRange_none_none]
  exact decGroups_encGroups _ h1 h2 B hB

/-- C3 witness: the round-trip on the default instance at a concrete
byte sequence covering a non-multiple-of-3 length. -/
theorem c3_roundtrip_witness :
    decode (baseMapOf ALPHABET)
      (encode (baseMapOf ALPHABET) [0, 77, 255, 10] none none) none none =
      Except.ok [0, 77, 255, 10] :=
  c3_roundtrip ALPHABET [0, 77, 255, 10] (by decide) (by decide)

/-- C6: `encodeInt` raises `RangeError` exactly when the coerced value
(non-finite input mapping to an infinity) falls outside the safe-integer
range, and the arbitrary-precision `encodeBigInt` never produces a
`RangeError` (its embedding is total, the method body having no throw for
integer input). -/
theorem c6_range_error (ab : List Char) (v : IntOrInf) (n : Int) :
    (encodeInt ab v = Except.error Err.rangeError ↔ outsideSafeRange v)
    ∧ (Except.ok (encodeBigInt ab n) : Except Err (List Char)) ≠
        Except.error Err.rangeError := by
  refine ⟨?_, by simp⟩
  cases v with
  | negInf => simp [encodeInt, outsideSafeRange]
  | posInf => simp [encodeInt, outsideSafeRange]
  | int k =>
    simp only [encodeInt, outsideSafeRange]
    by_cases h1 : k < MIN_SAFE_INTEGER
    · simp [h1]
    · by_cases h2 : MAX_SAFE_INTEGER < k
      · simp [h1, h2]
      · by_cases h3 : k = 0
        · subst h3
          simp [MIN_SAFE_INTEGER, MAX_SAFE_INTEGER]
        · by_cases h4 : k < 0 <;> simp [h1, h2, h3, h4]

/-- C6 witness: the statement at the concrete out-of-range input 2^53. -/
theorem c6_range_error_witness :
    (encodeInt ALPHABET (IntOrInf.int 9007199254740992) =
        Except.error Err.rangeError ↔ outsideSafeRange (IntOrInf.int 9007199254740992))
    ∧ (Except.ok (encodeBigInt ALPHABET 9007199254740992) : Except Err (List Char)) ≠
        Except.error Err.rangeError :=
  c6_range_error ALPHABET (IntOrInf.int 9007199254740992) 9007199254740992

/-- C7, counterexample: `decodeInt("-")` does not return 0. -/
theorem c7_counterexample :
    decodeInt ALPHABET [NEGATIVE_CHAR] ≠ Except.ok 0 := by decide

/-- C7 (amended): on the bare sign marker the skip applies only when
`length > 1`, so the loop starts at index 0, looks the sign marker up as a
digit and raises `InvalidCharacter`. -/
theorem c7_bare_sign :
    decodeInt ALPHABET [NEGATIVE_CHAR] = Except.error Err.invalidCharacter := by
  decide

/-- C8, counterexample: `encodeText` refutes the claim as frozen.  Its
range arguments index the UTF-8 byte sequence, not the input string, so on
the one-character string `"é"` (UTF-8 `[0xC3, 0xA9]`) the ranged call
`encodeText("é", 0, 1)` encodes the single byte `0xC3` (giving `"ww=="`),
while the rangeless call on the JavaScript-slice sub-sequence of the input,
`encodeText("é".slice(0, 1)) = encodeText("é")`, encodes both bytes
(giving `"w6k="`). -/
theorem c8_counterexample :
    encodeText ALPHABET utf8Encode ['é'] (some 0) (some 1) ≠
      encodeText ALPHABET utf8Encode (jsSlice ['é'] (some 0) (some 1)) none none := by
  decide

/-- C8 (amended): for `encode`, `decode`, `encodeToString`,
`decodeFromString` and `decodeText`, the result with `start`/`end`
arguments equals the same operation applied with no range arguments to the
JavaScript-slice sub-sequence of the input (negative indices from the end,
clamped to `[0, length]`, omitted bounds defaulting to the full input; an
empty selection therefore gives the empty output).  `encodeText` is the
exception: its range arguments select a sub-sequence of the UTF-8 byte
sequence of the input string, not of the string itself, so its ranged
result equals the rangeless `encodeToString` of the sliced byte
sequence. -/
theorem c8_range_semantics (m : List Nat) (ab : List Char) (input : List Nat)
    (str t : List Char) (s e : Option Int) (utf8e : List Char → List Nat)
    (utf8d : List Nat → List Char) :
    encode m input s e = encode m (jsSlice input s e) none none
    ∧ decode m input s e = decode m (jsSlice input s e) none none
    ∧ encodeToString ab input s e = encodeToString ab (jsSlice input s e) none none
    ∧ decodeFromString ab str s e = decodeFromString ab (jsSlice str s e) none none
    ∧ decodeText ab utf8d str s e = decodeText ab utf8d (jsSlice str s e) none none
    ∧ encodeText ab utf8e t s e = encodeToString ab (jsSlice (utf8e t) s e) none none := by
  refine ⟨?_, ?_, ?_, ?_, ?_, ?_⟩ <;>
    simp [encode, decode, encodeToString, decodeFromString, encodeText, decodeText,
      selectRange_none_none, ← selectRange_eq_jsSlice]

/-- C9: the concrete vectors of the spec on the default instance. -/
theorem c9_vectors :
    encodeToString ALPHABET [0, 2, 4, 8, 15, 31, 63, 127, 255] none none =
      "AAIECA8fP3//".data
    ∧ encode (baseMapOf ALPHABET) [0, 2, 4, 8, 15, 31, 63, 127, 255] none none =
        "AAIECA8fP3//".data.map Char.toNat
    ∧ encodeText ALPHABET utf8Encode "Ave, Darkwolf!".data none none =
        "QXZlLCBEYXJrd29sZiE=".data
    ∧ encodeInt ALPHABET (IntOrInf.int 9007199254740991) =
        Except.ok "f////////".data
    ∧ decodeInt ALPHABET "f////////".data = Except.ok 9007199254740991 := by
  refine ⟨by decide, by decide, by decide, by decide, by decide⟩

/-- C10: a 64-character candidate of distinct characters containing any
character outside the standard set (e.g. a URL-safe symbol) is rejected:
`isAlphabet` returns false and construction (`toAlphabet`) raises the
invalid-symbol error. -/
theorem c10_alphabet_closed (cand : List Char) (hlen : cand.length = 64)
    (_hnodup : cand.Nodup) (hforeign : ∃ c ∈ cand, c ∉ ALPHABET) :
    isAlphabet cand = false
    ∧ toAlphabet (some cand) = Except.error Err.invalidSymbol := by
  constructor
  · simp only [isAlphabet]
    rw [isAlphabetGo_false cand [] hforeign]
    simp
  · simp only [toAlphabet]
    rw [if_neg (by simp [hlen, BASE]), toAlphabetGo_foreign cand [] hforeign]
    rfl

/-- C10 witness: the candidate obtained from the standard alphabet by
replacing its first character with the URL-safe `'-'`. -/
theorem c10_alphabet_closed_witness :
    isAlphabet ('-' :: ALPHABET.drop 1) = false
    ∧ toAlphabet (some ('-' :: ALPHABET.drop 1)) = Except.error Err.invalidSymbol :=
  c10_alphabet_closed ('-' :: ALPHABET.drop 1) (by decide) (by decide) (by decide)

/-- C4: safe-integer round-trip — whenever `encodeInt` succeeds on a safe
integer (which by C6 is exactly the safe range), `decodeInt` recovers it,
zero, both extremes and their negations included. -/
theorem c4_int_roundtrip (n : Int) (s : List Char)
    (hmin : MIN_SAFE_INTEGER ≤ n) (hmax : n ≤ MAX_SAFE_INTEGER)
    (henc : encodeInt ALPHABET (IntOrInf.int n) = Except.ok s) :
    decodeInt ALPHABET s = Except.ok n := by
  have hnodup : ALPHABET.Nodup := by decide
  have hlen : ALPHABET.length = 64 := by decide
  have hdash : NEGATIVE_CHAR ∉ ALPHABET := by decide
  simp only [MIN_SAFE_INTEGER] at hmin
  simp only [MAX_SAFE_INTEGER] at hmax
  simp only [encodeInt, MIN_SAFE_INTEGER, MAX_SAFE_INTEGER] at henc
  rw [if_neg (by omega), if_neg (by omega)] at henc
  by_cases h0 : n = 0
  · subst h0
    rw [if_pos rfl] at henc
    obtain rfl : s = [ALPHABET.getD 0 '!'] := (Except.ok.inj henc).symm
    decide
  · rw [if_neg h0] at henc
    have hm1 : 1 ≤ n.natAbs := Int.natAbs_pos.mpr h0
    have hdig := decodeIntGo_toDigitsGo ALPHABET hnodup hlen n.natAbs n.natAbs le_rfl 0
    have hne : toDigitsGo ALPHABET n.natAbs n.natAbs ≠ [] :=
      toDigitsGo_ne_nil ALPHABET n.natAbs n.natAbs (by omega) le_rfl
    have hpos : 0 < (toDigitsGo ALPHABET n.natAbs n.natAbs).length :=
      List.length_pos.mpr hne
    have hheadne : ¬ ((toDigitsGo ALPHABET n.natAbs n.natAbs).headD ' ' = NEGATIVE_CHAR) := by
      intro h
      exact hdash (h ▸ toDigitsGo_mem ALPHABET hlen n.natAbs n.natAbs _
        (headD_mem _ ' ' hne))
    by_cases hneg : n < 0
    · rw [if_pos hneg] at henc
      obtain rfl : s = NEGATIVE_CHAR :: toDigitsGo ALPHABET n.natAbs n.natAbs :=
        (Except.ok.inj henc).symm
      have hc : (NEGATIVE_CHAR :: toDigitsGo ALPHABET n.natAbs n.natAbs).headD ' ' =
          NEGATIVE_CHAR ∧
          1 < (NEGATIVE_CHAR :: toDigitsGo ALPHABET n.natAbs n.natAbs).length := by
        refine ⟨rfl, ?_⟩
        simp only [List.length_cons]
        omega
      simp only [decodeInt]
      rw [if_pos hc]
      simp only [List.drop_succ_cons, List.drop_zero, hdig, Except.map]
      have hc2 : (NEGATIVE_CHAR :: toDigitsGo ALPHABET n.natAbs n.natAbs).headD ' ' =
          NEGATIVE_CHAR ∧
          (0 : Int) < 0 * 64 ^ (toDigitsGo ALPHABET n.natAbs n.natAbs).length +
            (n.natAbs : Int) := by
        refine ⟨rfl, ?_⟩
        simp only [zero_mul, zero_add]
        exact_mod_cast hm1
      rw [if_pos hc2]
      congr 1
      simp only [zero_mul, zero_add]
      omega
    · rw [if_neg hneg] at henc
      obtain rfl : s = toDigitsGo ALPHABET n.natAbs n.natAbs :=
        (Except.ok.inj henc).symm
      have hcond : ¬ ((toDigitsGo ALPHABET n.natAbs n.natAbs).headD ' ' = NEGATIVE_CHAR ∧
          1 < (toDigitsGo ALPHABET n.natAbs n.natAbs).length) := fun h => hheadne h.1
      have hcond2 : ¬ ((toDigitsGo ALPHABET n.natAbs n.natAbs).headD ' ' = NEGATIVE_CHAR ∧
          (0 : Int) < 0 * 64 ^ (toDigitsGo ALPHABET n.natAbs n.natAbs).length +
            (n.natAbs : Int)) := fun h => hheadne h.1
      simp only [decodeInt]
      rw [if_neg hcond]
      simp only [hdig, Except.map]
      rw [if_neg hcond2]
      congr 1
      simp only [zero_mul, zero_add]
      omega

/-- C4 witness: the round-trip at the minimum safe integer. -/
theorem c4_int_roundtrip_witness :
    decodeInt ALPHABET (NEGATIVE_CHAR :: "f////////".data) =
      Except.ok MIN_SAFE_INTEGER :=
  c4_int_roundtrip MIN_SAFE_INTEGER (NEGATIVE_CHAR :: "f////////".data)
    (by decide) (by decide) (by decide)

/-- C5: arbitrary-precision round-trip — `decodeBigInt(encodeBigInt(N)) = N`
for every integer, with no magnitude bound. -/
theorem c5_bigint_roundtrip (n : Int) :
    decodeBigInt ALPHABET (encodeBigInt ALPHABET n) = Except.ok n := by
  have hnodup : ALPHABET.Nodup := by decide
  have hlen : ALPHABET.length = 64 := by decide
  have hdash : NEGATIVE_CHAR ∉ ALPHABET := by decide
  by_cases h0 : n = 0
  · subst h0
    decide
  · have hm1 : 1 ≤ n.natAbs := Int.natAbs_pos.mpr h0
    have hdig := decodeIntGo_toDigitsGo ALPHABET hnodup hlen n.natAbs n.natAbs le_rfl 0
    have hne : toDigitsGo ALPHABET n.natAbs n.natAbs ≠ [] :=
      toDigitsGo_ne_nil ALPHABET n.natAbs n.natAbs (by omega) le_rfl
    have hpos : 0 < (toDigitsGo ALPHABET n.natAbs n.natAbs).length :=
      List.length_pos.mpr hne
    have hheadne : ¬ ((toDigitsGo ALPHABET n.natAbs n.natAbs).headD ' ' = NEGATIVE_CHAR) := by
      intro h
      exact hdash (h ▸ toDigitsGo_mem ALPHABET hlen n.natAbs n.natAbs _
        (headD_mem _ ' ' hne))
    by_cases hneg : n < 0
    · have hc : (NEGATIVE_CHAR :: toDigitsGo ALPHABET n.natAbs n.natAbs).headD ' ' =
          NEGATIVE_CHAR ∧
          1 < (NEGATIVE_CHAR :: toDigitsGo ALPHABET n.natAbs n.natAbs).length := by
        refine ⟨rfl, ?_⟩
        simp only [List.length_cons]
        omega
      simp only [encodeBigInt, if_neg h0, if_pos hneg, decodeBigInt]
      rw [if_pos hc]
      simp only [List.drop_succ_cons, List.drop_zero, hdig, Except.map]
      have hc3 : (NEGATIVE_CHAR :: toDigitsGo ALPHABET n.natAbs n.natAbs).headD ' ' =
          NEGATIVE_CHAR := rfl
      rw [if_pos hc3]
      congr 1
      simp only [zero_mul, zero_add]
      omega
    · have hcond : ¬ ((toDigitsGo ALPHABET n.natAbs n.natAbs).headD ' ' = NEGATIVE_CHAR ∧
          1 < (toDigitsGo ALPHABET n.natAbs n.natAbs).length) := fun h => hheadne h.1
      simp only [encodeBigInt, if_neg h0, if_neg hneg, decodeBigInt]
      rw [if_neg hcond]
      simp only [hdig, Except.map]
      rw [if_neg hheadne]
      congr 1
      simp only [zero_mul, zero_add]
      omega

end B64
